import Mathlib

/-!
# Gaussian elimination with pthreads (`assn2/gaussian/gauss_eliminate.c`)

A shallow embedding of `gauss_eliminate_using_pthreads`, its two workers
`divide` and `eliminate`, and the comparator `check_results`.

The code is embedded twice.

* In `GaussEliminate` the `float` values are rationals and memory is a total
  map from integer offsets (relative to `U.elements`) to values.  This layer is
  used to evaluate the code on small concrete inputs.
* In `GaussEliminate.Checked` the float operations are parameters
  (`FloatOps`), so that a statement proved for all of them holds for IEEE
  single precision in particular, and every store is checked against the
  allocated buffer: a run that stores outside `0 .. size - 1` has no result.
  Loads are not checked: the code loads from offset `-1` in its first
  iteration, and the value found there is part of the input.

Conventions common to both layers.

* `NUM_THREADS` comes from `gauss_eliminate.h`; it is the parameter `T`.
* `int` values are unbounded naturals and `chunk_size`, which the code computes
  as `(int)floor((float)num_elements / (float)NUM_THREADS)`, is the integer
  quotient.  Both agree with the C code as long as every `int` stays below
  `2 ^ 31` and both operands of the quotient are below `2 ^ 24`; the general
  statements about the driver carry bounds that ensure this.
* The workers of one phase are run one after the other in creation order.
  With `T = 1` this is the only schedule there is.
-/

namespace GaussEliminate

/-- Float memory addressed by offsets relative to `U.elements`. -/
abbrev Mem := Int → ℚ

/-- The assignment `elements[a] = v`. -/
def store (m : Mem) (a : Int) (v : ℚ) : Mem :=
  fun b => if b = a then v else m b

/-- The `Matrix` structure passed around by value: the shape and the pointer. -/
structure Matrix where
  num_columns : Nat
  num_rows : Nat
  elements : Mem

/-- Memory holding the list `l` at offsets `0, 1, ...`, the value `pre` at
every negative offset and `0` past the end of the list. -/
def mem_of (pre : ℚ) (l : List ℚ) : Mem :=
  fun a => if a < 0 then pre else l.getD a.toNat 0

/-- The first `len` cells of the buffer, as a list. -/
def read_buffer (m : Mem) (len : Nat) : List ℚ :=
  (List.range len).map (fun k => m (k : Int))

/-! ## `divide` -/

/-- Arguments of one `divide` worker (`divide_data_t`, without the pointers). -/
structure divide_data_t where
  start : Nat
  end_ : Nat
  piv_element : ℚ

/-- The values the counter `i` takes in
`for (i = start; i < end; i += NUM_THREADS)`, with `fuel` bounding the number
of iterations. -/
def divide_visits (T stop : Nat) : Nat → Nat → List Nat
  | 0, _ => []
  | fuel + 1, i => if i < stop then i :: divide_visits T stop fuel (i + T) else []

/-- The offsets visited by a `divide` worker.  For `T ≥ 1` the counter leaves
the range after at most `end - start` iterations. -/
def divide_indices (T : Nat) (d : divide_data_t) : List Nat :=
  divide_visits T d.end_ (d.end_ - d.start) d.start

/-- The worker `divide`: `elements[i] = elements[i] / piv_element` at each
visited offset. -/
def divide (T : Nat) (d : divide_data_t) (m : Mem) : Mem :=
  (divide_indices T d).foldl
    (fun (m : Mem) (i : Nat) => store m (i : Int) (m (i : Int) / d.piv_element)) m

/-! ## `eliminate` -/

/-- Arguments of one `eliminate` worker (`elim_data_t`, without the pointers). -/
structure elim_data_t where
  tid : Nat
  chunk_size : Nat
  start : Nat
  num_iter : Nat
  piv_element : ℚ
deriving DecidableEq

/-- The locals of `eliminate` together with the memory it works on. -/
structure elim_state where
  elim_val : ℚ
  elim_row : Int
  elements : Mem

/-- The offsets swept by an `eliminate` worker: `[start, start + chunk_size)`
when `tid < NUM_THREADS - 1`, and `[start, num_columns * num_rows)` otherwise. -/
def eliminate_range (T : Nat) (d : elim_data_t) (num_columns num_rows : Nat) : List Nat :=
  if (d.tid : Int) < (T : Int) - 1 then List.range' d.start d.chunk_size
  else List.range' d.start (num_columns * num_rows - d.start)

/-- One pass through the body of the `for` loop of `eliminate`, at counter `i`. -/
def eliminate_body (d : elim_data_t) (num_columns : Nat) (s : elim_state) (i : Nat) :
    elim_state :=
  let new_elim_row : Int := ((i / num_columns : Nat) : Int)
  let s1 : elim_state :=
    if new_elim_row ≠ s.elim_row then
      { elim_val := d.piv_element /
          s.elements (new_elim_row * (num_columns : Int) + (d.num_iter : Int))
        elim_row := new_elim_row
        elements := s.elements }
    else s
  { elim_val := s1.elim_val
    elim_row := s1.elim_row
    elements := store s1.elements (i : Int)
      (s1.elements (i : Int) - s1.elim_val * s1.elements ((i : Int) - (num_columns : Int))) }

/-- The worker `eliminate`. -/
def eliminate (T : Nat) (d : elim_data_t) (num_columns num_rows : Nat) (m : Mem) : Mem :=
  ((eliminate_range T d num_columns num_rows).foldl (eliminate_body d num_columns)
    { elim_val := 0, elim_row := -1, elements := m }).elements

/-! ## The driver -/

/-- The arguments the driver gives divide worker `j` at pivot row `i`
(`start_row` has already been incremented past the diagonal). -/
def div_data (U : Matrix) (i j : Nat) : divide_data_t :=
  let start_row := i * U.num_columns + i
  let end_row := (i + 1) * U.num_columns
  { start := (start_row + 1) + j
    end_ := end_row
    piv_element := U.elements ((start_row : Int) - 1) }

/-- The arguments the driver gives eliminate worker `j` at pivot row `i`.
`chunk_size` is `(int)floor((float)num_elements / (float)NUM_THREADS)`, which is
the integer quotient as long as both numbers are exactly representable. -/
def elim_data (T : Nat) (U : Matrix) (i j : Nat) : elim_data_t :=
  let size := U.num_rows * U.num_columns
  let start_row := i * U.num_columns + i
  let end_row := (i + 1) * U.num_columns
  let num_elements := size - (i + 1) * U.num_columns
  let chunk_size := num_elements / T
  { tid := j
    chunk_size := chunk_size
    start := end_row + chunk_size * i
    num_iter := i
    piv_element := U.elements ((start_row : Int) - 1) }

/-- The normalize phase of iteration `i`: the driver writes the diagonal, then
the `T` divide workers run. -/
def normalize_phase (T : Nat) (U : Matrix) (i : Nat) : Mem :=
  (List.range T).foldl (fun m j => divide T (div_data U i j) m)
    (store U.elements ((i * U.num_columns + i : Nat) : Int) 1)

/-- The eliminate phase of iteration `i`, run on the memory `m` left by the
normalize phase. -/
def eliminate_phase (T : Nat) (U : Matrix) (i : Nat) (m : Mem) : Mem :=
  (List.range T).foldl
    (fun m j => eliminate T (elim_data T U i j) U.num_columns U.num_rows m) m

/-- One iteration of the pivot loop of `gauss_eliminate_using_pthreads`. -/
def pivot_iteration (T : Nat) (U : Matrix) (i : Nat) : Matrix :=
  let m := normalize_phase T U i
  { num_columns := U.num_columns
    num_rows := U.num_rows
    elements := if i ≠ U.num_rows - 1 then eliminate_phase T U i m else m }

/-- The matrix after the first `k` iterations of the pivot loop. -/
def gauss_iterations (T : Nat) (U : Matrix) (k : Nat) : Matrix :=
  (List.range k).foldl (pivot_iteration T) U

/-- The driver `gauss_eliminate_using_pthreads`: iterations `0 .. num_rows - 1`. -/
def gauss_eliminate_using_pthreads (T : Nat) (U : Matrix) : Matrix :=
  gauss_iterations T U U.num_rows

/-! ## Offsets touched by `eliminate` -/

/-- The body of the loop of `eliminate` at counter `i`, keeping only `elim_row`
and appending the offsets it uses: the factor offset
`elim_row * num_columns + num_iter` when the row changes, then `i` and
`i - num_columns`. -/
def eliminate_offsets_body (d : elim_data_t) (num_columns : Nat) (s : Int × List Int)
    (i : Nat) : Int × List Int :=
  let new_elim_row : Int := ((i / num_columns : Nat) : Int)
  let factor : List Int :=
    if new_elim_row ≠ s.1 then [new_elim_row * (num_columns : Int) + (d.num_iter : Int)] else []
  (new_elim_row, s.2 ++ factor ++ [(i : Int), (i : Int) - (num_columns : Int)])

/-- All offsets an `eliminate` worker reads or writes, in program order. -/
def eliminate_offsets (T : Nat) (d : elim_data_t) (num_columns num_rows : Nat) : List Int :=
  ((eliminate_range T d num_columns num_rows).foldl (eliminate_offsets_body d num_columns)
    (-1, [])).2

/-! ## Sequential Gaussian elimination without pivoting, as the specification words it -/

/-- Divide row `i` of an `n × n` matrix by `U[i][i]`. -/
def spec_divide_row (n i : Nat) (m : Mem) : Mem :=
  fun a =>
    if ((i * n : Nat) : Int) ≤ a ∧ a < (((i + 1) * n : Nat) : Int) then
      m a / m ((i * n + i : Nat) : Int)
    else m a

/-- From every row `r > i` subtract `U[r][i]` times row `i`. -/
def spec_subtract_rows (n i : Nat) (m : Mem) : Mem :=
  fun a =>
    if (((i + 1) * n : Nat) : Int) ≤ a ∧ a < ((n * n : Nat) : Int) then
      m a - m (a / (n : Int) * (n : Int) + (i : Int)) * m (((i * n : Nat) : Int) + a % (n : Int))
    else m a

/-- Standard sequential Gaussian elimination without pivoting: for each pivot
row in order, divide it by its diagonal element and clear the column below. -/
def gauss_spec (n : Nat) (m : Mem) : Mem :=
  (List.range n).foldl (fun m i => spec_subtract_rows n i (spec_divide_row n i m)) m


/-! ## The code over an arbitrary float arithmetic, with checked stores -/

namespace Checked

/-- The float operations and constants the code uses: the literals `0` and `1`,
`-`, `*`, `/`, `fabsf` and the comparison `>`. -/
structure FloatOps (F : Type) where
  zero : F
  one : F
  sub : F → F → F
  mul : F → F → F
  div : F → F → F
  fabsf : F → F
  gt : F → F → Bool

/-- Exact arithmetic on rationals; it computes what the code computes as long as
no divisor is zero and every result is exactly representable. -/
def exact_ops : FloatOps ℚ where
  zero := 0
  one := 1
  sub := fun a b => a - b
  mul := fun a b => a * b
  div := fun a b => a / b
  fabsf := fun a => |a|
  gt := fun a b => decide (a > b)

/-- Float values with the IEEE special values: a finite value, the two
infinities and NaN.  Finite values are not rounded and zero carries no sign. -/
inductive FVal where
  | fin (q : ℚ)
  | pinf
  | ninf
  | nan
deriving DecidableEq

/-- IEEE subtraction on `FVal`. -/
def FVal.sub : FVal → FVal → FVal
  | .nan, _ => .nan
  | _, .nan => .nan
  | .pinf, .pinf => .nan
  | .ninf, .ninf => .nan
  | .pinf, _ => .pinf
  | .ninf, _ => .ninf
  | .fin _, .pinf => .ninf
  | .fin _, .ninf => .pinf
  | .fin a, .fin b => .fin (a - b)

/-- The infinity `+inf` when `positive` holds and `-inf` otherwise. -/
def FVal.signed_inf (positive : Bool) : FVal :=
  if positive then .pinf else .ninf

/-- IEEE multiplication on `FVal`. -/
def FVal.mul : FVal → FVal → FVal
  | .nan, _ => .nan
  | _, .nan => .nan
  | .pinf, .pinf => .pinf
  | .pinf, .ninf => .ninf
  | .ninf, .pinf => .ninf
  | .ninf, .ninf => .pinf
  | .pinf, .fin b => if b = 0 then .nan else FVal.signed_inf (decide (0 < b))
  | .ninf, .fin b => if b = 0 then .nan else FVal.signed_inf (decide (b < 0))
  | .fin a, .pinf => if a = 0 then .nan else FVal.signed_inf (decide (0 < a))
  | .fin a, .ninf => if a = 0 then .nan else FVal.signed_inf (decide (a < 0))
  | .fin a, .fin b => .fin (a * b)

/-- IEEE division on `FVal`: a finite non-zero value divided by zero is an
infinity, zero divided by zero is NaN. -/
def FVal.div : FVal → FVal → FVal
  | .nan, _ => .nan
  | _, .nan => .nan
  | .pinf, .pinf => .nan
  | .pinf, .ninf => .nan
  | .ninf, .pinf => .nan
  | .ninf, .ninf => .nan
  | .pinf, .fin b => FVal.signed_inf (decide (0 ≤ b))
  | .ninf, .fin b => FVal.signed_inf (decide (b < 0))
  | .fin _, .pinf => .fin 0
  | .fin _, .ninf => .fin 0
  | .fin a, .fin b =>
    if b = 0 then (if a = 0 then .nan else FVal.signed_inf (decide (0 < a))) else .fin (a / b)

/-- The function `fabsf` on `FVal`. -/
def FVal.fabsf : FVal → FVal
  | .nan => .nan
  | .pinf => .pinf
  | .ninf => .pinf
  | .fin a => .fin |a|

/-- The comparison `a > b` on `FVal`: false as soon as one side is NaN. -/
def FVal.gt : FVal → FVal → Bool
  | .nan, _ => false
  | _, .nan => false
  | .pinf, .pinf => false
  | .pinf, _ => true
  | .ninf, _ => false
  | .fin _, .pinf => false
  | .fin _, .ninf => true
  | .fin a, .fin b => decide (a > b)

/-- The comparison `a <= b` on `FVal`: false as soon as one side is NaN. -/
def FVal.le : FVal → FVal → Bool
  | .nan, _ => false
  | _, .nan => false
  | .ninf, _ => true
  | .pinf, .pinf => true
  | .pinf, _ => false
  | .fin _, .pinf => true
  | .fin _, .ninf => false
  | .fin a, .fin b => decide (a ≤ b)

/-- Is the value finite? -/
def FVal.is_finite : FVal → Bool
  | .fin _ => true
  | _ => false

/-- Arithmetic with the IEEE special values. -/
def ieee_ops : FloatOps FVal where
  zero := .fin 0
  one := .fin 1
  sub := FVal.sub
  mul := FVal.mul
  div := FVal.div
  fabsf := FVal.fabsf
  gt := FVal.gt

/-- The memory `mem_of pre l` with finite `FVal` contents. -/
def ieee_mem (pre : ℚ) (l : List ℚ) : Int → FVal :=
  fun a => .fin (mem_of pre l a)

/-- The `Matrix` structure: the shape and the pointer. -/
structure Matrix (F : Type) where
  num_columns : Nat
  num_rows : Nat
  elements : Int → F

/-- The first `len` cells of the buffer, as a list. -/
def read_buffer {F : Type} (m : Int → F) (len : Nat) : List F :=
  (List.range len).map (fun k => m (k : Int))

/-- The assignment `elements[a] = v` into a buffer of `size` cells; there is no
result when the offset is outside the buffer. -/
def store {F : Type} (size : Nat) (m : Int → F) (a : Int) (v : F) : Option (Int → F) :=
  if 0 ≤ a ∧ a < (size : Int) then some (fun b => if b = a then v else m b) else none

/-- Arguments of one `divide` worker. -/
structure divide_data_t (F : Type) where
  start : Nat
  end_ : Nat
  piv_element : F

/-- The worker `divide` on a buffer of `size` cells:
`elements[i] = elements[i] / piv_element` for `i = start, start + T, ...` below
`end`. -/
def divide {F : Type} (ops : FloatOps F) (size T : Nat) (d : divide_data_t F)
    (m : Int → F) : Option (Int → F) :=
  (divide_visits T d.end_ (d.end_ - d.start) d.start).foldlM
    (fun (m : Int → F) (i : Nat) => store size m (i : Int) (ops.div (m (i : Int)) d.piv_element))
    m

/-- Arguments of one `eliminate` worker. -/
structure elim_data_t (F : Type) where
  tid : Nat
  chunk_size : Nat
  start : Nat
  num_iter : Nat
  piv_element : F

/-- The locals of `eliminate` together with the memory it works on. -/
structure elim_state (F : Type) where
  elim_val : F
  elim_row : Int
  elements : Int → F

/-- The offsets swept by an `eliminate` worker: `[start, start + chunk_size)`
when `tid < NUM_THREADS - 1`, and `[start, num_columns * num_rows)` otherwise. -/
def eliminate_range {F : Type} (T : Nat) (d : elim_data_t F) (num_columns num_rows : Nat) :
    List Nat :=
  if (d.tid : Int) < (T : Int) - 1 then List.range' d.start d.chunk_size
  else List.range' d.start (num_columns * num_rows - d.start)

/-- The factor and row number after the test `new_elim_row != elim_row` at
counter `i`. -/
def eliminate_refresh {F : Type} (ops : FloatOps F) (d : elim_data_t F) (num_columns : Nat)
    (s : elim_state F) (i : Nat) : elim_state F :=
  let new_elim_row : Int := ((i / num_columns : Nat) : Int)
  if new_elim_row ≠ s.elim_row then
    { elim_val := ops.div d.piv_element
        (s.elements (new_elim_row * (num_columns : Int) + (d.num_iter : Int)))
      elim_row := new_elim_row
      elements := s.elements }
  else s

/-- One pass through the body of the `for` loop of `eliminate`, at counter `i`:
the factor is refreshed when the row changes, then
`elements[i] = elements[i] - elim_val * elements[i - num_columns]`. -/
def eliminate_body {F : Type} (ops : FloatOps F) (size : Nat) (d : elim_data_t F)
    (num_columns : Nat) (s : elim_state F) (i : Nat) : Option (elim_state F) :=
  let s1 := eliminate_refresh ops d num_columns s i
  (store size s1.elements (i : Int)
    (ops.sub (s1.elements (i : Int))
      (ops.mul s1.elim_val (s1.elements ((i : Int) - (num_columns : Int)))))).map
    (fun m => { elim_val := s1.elim_val, elim_row := s1.elim_row, elements := m })

/-- The worker `eliminate`; the buffer has `num_rows * num_columns` cells. -/
def eliminate {F : Type} (ops : FloatOps F) (T : Nat) (d : elim_data_t F)
    (num_columns num_rows : Nat) (m : Int → F) : Option (Int → F) :=
  ((eliminate_range T d num_columns num_rows).foldlM
    (eliminate_body ops (num_rows * num_columns) d num_columns)
    { elim_val := ops.zero, elim_row := -1, elements := m }).map (fun s => s.elements)

/-- The loop body of the variant of `eliminate` that does not cache the factor:
it is recomputed from the current value of `U[r][num_iter]` before each
element update. -/
def eliminate_body_recompute {F : Type} (ops : FloatOps F) (size : Nat) (d : elim_data_t F)
    (num_columns : Nat) (m : Int → F) (i : Nat) : Option (Int → F) :=
  let row : Int := ((i / num_columns : Nat) : Int)
  let factor : F := ops.div d.piv_element (m (row * (num_columns : Int) + (d.num_iter : Int)))
  store size m (i : Int)
    (ops.sub (m (i : Int)) (ops.mul factor (m ((i : Int) - (num_columns : Int)))))

/-- The variant of `eliminate` that recomputes the factor at every element. -/
def eliminate_recompute {F : Type} (ops : FloatOps F) (T : Nat) (d : elim_data_t F)
    (num_columns num_rows : Nat) (m : Int → F) : Option (Int → F) :=
  (eliminate_range T d num_columns num_rows).foldlM
    (eliminate_body_recompute ops (num_rows * num_columns) d num_columns) m

/-- Offset `k` of a sweep that starts at `start` is safe for caching: it lies in
or left of the pivot column `num_iter`, or the pivot-column cell of its row
lies before `start`, so that the sweep does not overwrite it. -/
@[reducible] def cache_safe (num_columns num_iter start k : Nat) : Prop :=
  k % num_columns ≤ num_iter ∨ k / num_columns * num_columns + num_iter < start

/-- The arguments the driver gives divide worker `j` at pivot row `i`
(`start_row` has already been incremented past the diagonal). -/
def div_data {F : Type} (U : Matrix F) (i j : Nat) : divide_data_t F :=
  let start_row := i * U.num_columns + i
  let end_row := (i + 1) * U.num_columns
  { start := (start_row + 1) + j
    end_ := end_row
    piv_element := U.elements ((start_row : Int) - 1) }

/-- The arguments the driver gives eliminate worker `j` at pivot row `i`. -/
def elim_data {F : Type} (T : Nat) (U : Matrix F) (i j : Nat) : elim_data_t F :=
  let size := U.num_rows * U.num_columns
  let start_row := i * U.num_columns + i
  let end_row := (i + 1) * U.num_columns
  let num_elements := size - (i + 1) * U.num_columns
  let chunk_size := num_elements / T
  { tid := j
    chunk_size := chunk_size
    start := end_row + chunk_size * i
    num_iter := i
    piv_element := U.elements ((start_row : Int) - 1) }

/-- The normalize phase of iteration `i`: the driver writes the diagonal, then
the `T` divide workers run. -/
def normalize_phase {F : Type} (ops : FloatOps F) (T : Nat) (U : Matrix F) (i : Nat) :
    Option (Int → F) :=
  (store (U.num_rows * U.num_columns) U.elements ((i * U.num_columns + i : Nat) : Int)
    ops.one).bind
    (fun m0 => (List.range T).foldlM
      (fun m j => divide ops (U.num_rows * U.num_columns) T (div_data U i j) m) m0)

/-- The eliminate phase of iteration `i`, run on the memory `m` left by the
normalize phase. -/
def eliminate_phase {F : Type} (ops : FloatOps F) (T : Nat) (U : Matrix F) (i : Nat)
    (m : Int → F) : Option (Int → F) :=
  (List.range T).foldlM
    (fun m j => eliminate ops T (elim_data T U i j) U.num_columns U.num_rows m) m

/-- One iteration of the pivot loop of `gauss_eliminate_using_pthreads`. -/
def pivot_iteration {F : Type} (ops : FloatOps F) (T : Nat) (U : Matrix F) (i : Nat) :
    Option (Matrix F) :=
  (normalize_phase ops T U i).bind (fun m =>
    (if i ≠ U.num_rows - 1 then eliminate_phase ops T U i m else some m).map
      (fun m2 => { num_columns := U.num_columns, num_rows := U.num_rows, elements := m2 }))

/-- The matrix after the first `k` iterations of the pivot loop. -/
def gauss_iterations {F : Type} (ops : FloatOps F) (T : Nat) (U : Matrix F) (k : Nat) :
    Option (Matrix F) :=
  (List.range k).foldlM (pivot_iteration ops T) U

/-- The driver `gauss_eliminate_using_pthreads`: iterations `0 .. num_rows - 1`. -/
def gauss_eliminate_using_pthreads {F : Type} (ops : FloatOps F) (T : Nat) (U : Matrix F) :
    Option (Matrix F) :=
  gauss_iterations ops T U U.num_rows

/-- The value `piv_element` read at the start of iteration `i`. -/
def pivot_value {F : Type} (ops : FloatOps F) (T : Nat) (U : Matrix F) (i : Nat) : Option F :=
  (gauss_iterations ops T U i).map (fun V => (div_data V i 0).piv_element)

/-- The loop of `check_results` at counter `i` with `r` iterations left. -/
def check_results_from {F : Type} (ops : FloatOps F) (A B : Nat → F) (tolerance : F) :
    Nat → Nat → Int
  | _, 0 => 0
  | i, r + 1 =>
    if ops.gt (ops.fabsf (ops.sub (A i) (B i))) tolerance = true then -1
    else check_results_from ops A B tolerance (i + 1) r

/-- The comparator `check_results`; a negative `size` runs no iteration. -/
def check_results {F : Type} (ops : FloatOps F) (A B : Nat → F) (size : Int) (tolerance : F) :
    Int :=
  check_results_from ops A B tolerance 0 size.toNat

end Checked

/-! ## Basic facts about the loops -/

/-- Every visited counter value lies between the initial value and the bound. -/
theorem divide_visits_bounds (T stop : Nat) :
    ∀ (fuel i k : Nat), k ∈ divide_visits T stop fuel i → i ≤ k ∧ k < stop := by
  intro fuel
  induction fuel with
  | zero => intro i k h; simp [divide_visits] at h
  | succ f ih =>
    intro i k h
    unfold divide_visits at h
    split at h
    · rcases List.mem_cons.mp h with h | h
      · subst h; exact ⟨le_refl _, by assumption⟩
      · have := ih (i + T) k h
        omega
    · simp at h

/-- With enough fuel the loop visits exactly `i, i + T, i + 2T, ...` below the bound. -/
theorem mem_divide_visits (T stop : Nat) (hT : 1 ≤ T) :
    ∀ (fuel i k : Nat), stop - i ≤ fuel →
      (k ∈ divide_visits T stop fuel i ↔ k < stop ∧ ∃ q, k = i + q * T) := by
  intro fuel
  induction fuel with
  | zero =>
    intro i k hf
    simp only [divide_visits, List.not_mem_nil, false_iff]
    rintro ⟨hk, q, rfl⟩
    omega
  | succ f ih =>
    intro i k hf
    unfold divide_visits
    by_cases hi : i < stop
    · rw [if_pos hi, List.mem_cons, ih (i + T) k (by omega)]
      constructor
      · rintro (rfl | ⟨hk, q, rfl⟩)
        · exact ⟨hi, 0, by simp⟩
        · exact ⟨hk, q + 1, by ring⟩
      · rintro ⟨hk, q, rfl⟩
        cases q with
        | zero => left; simp
        | succ q => right; exact ⟨hk, q, by ring⟩
    · rw [if_neg hi]
      simp only [List.not_mem_nil, false_iff]
      rintro ⟨hk, q, rfl⟩
      omega

/-- The loop never visits a counter value twice when the stride is positive. -/
theorem nodup_divide_visits (T stop : Nat) (hT : 1 ≤ T) :
    ∀ (fuel i : Nat), (divide_visits T stop fuel i).Nodup := by
  intro fuel
  induction fuel with
  | zero => intro i; simp [divide_visits]
  | succ f ih =>
    intro i
    unfold divide_visits
    split
    · refine List.nodup_cons.mpr ⟨?_, ih (i + T)⟩
      intro h
      have := (divide_visits_bounds T stop f (i + T) i h).1
      omega
    · exact List.nodup_nil

/-- The loop stops because the counter leaves the range, not because fuel ends:
any two sufficient amounts of fuel give the same visits. -/
theorem divide_visits_fuel (T stop : Nat) (hT : 1 ≤ T) :
    ∀ (fuel fuel2 i : Nat), stop - i ≤ fuel → stop - i ≤ fuel2 →
      divide_visits T stop fuel i = divide_visits T stop fuel2 i := by
  intro fuel
  induction fuel with
  | zero =>
    intro fuel2 i hf _
    cases fuel2 with
    | zero => rfl
    | succ g =>
      unfold divide_visits
      rw [if_neg (by omega)]
  | succ f ih =>
    intro fuel2 i hf hf2
    cases fuel2 with
    | zero =>
      unfold divide_visits
      rw [if_neg (by omega)]
    | succ g =>
      unfold divide_visits
      by_cases hi : i < stop
      · rw [if_pos hi, if_pos hi, ih g (i + T) (by omega) (by omega)]
      · rw [if_neg hi, if_neg hi]

/-! ## The claims settled on the rational layer -/

/-- C6. For every `start` and `end` and every thread count `T ≥ 1`, the index sets
swept by the `T` divide workers (worker `t` starts at `start + t` and advances
by `T` while below `end`) partition `[start, end)`: every index of the range is
visited by exactly one worker, no worker visits an index outside the range, and
no worker visits an index twice. -/
theorem divide_workers_partition (T start stop : Nat) (piv : ℚ) (hT : 1 ≤ T) :
    (∀ k, start ≤ k → k < stop →
      ∃! t, t < T ∧ k ∈ divide_indices T ⟨start + t, stop, piv⟩) ∧
    (∀ t k, t < T → k ∈ divide_indices T ⟨start + t, stop, piv⟩ → start ≤ k ∧ k < stop) ∧
    (∀ t, t < T → (divide_indices T ⟨start + t, stop, piv⟩).Nodup) := by
  have hmem : ∀ t k, k ∈ divide_indices T ⟨start + t, stop, piv⟩ ↔
      k < stop ∧ ∃ q, k = start + t + q * T := fun t k =>
    mem_divide_visits T stop hT _ _ k (le_refl _)
  refine ⟨?_, ?_, ?_⟩
  · intro k hk1 hk2
    refine ⟨(k - start) % T, ⟨Nat.mod_lt _ hT, ?_⟩, ?_⟩
    · rw [hmem]
      refine ⟨hk2, (k - start) / T, ?_⟩
      have := Nat.mod_add_div (k - start) T
      rw [Nat.mul_comm] at this
      omega
    · rintro t ⟨ht, hin⟩
      rw [hmem] at hin
      obtain ⟨_, q, hq⟩ := hin
      have : k - start = t + q * T := by omega
      rw [this, Nat.add_mul_mod_self_right, Nat.mod_eq_of_lt ht]
  · intro t k _ hin
    have := divide_visits_bounds _ _ _ _ _ hin
    simp only at this
    omega
  · intro t _
    exact nodup_divide_visits T stop hT _ _

/-- Witness of C6: three workers over `[5, 12)`. -/
theorem divide_workers_partition_witness :
    (∀ k, 5 ≤ k → k < 12 → ∃! t, t < 3 ∧ k ∈ divide_indices 3 ⟨5 + t, 12, 2⟩) ∧
    (∀ t k, t < 3 → k ∈ divide_indices 3 ⟨5 + t, 12, 2⟩ → 5 ≤ k ∧ k < 12) ∧
    (∀ t, t < 3 → (divide_indices 3 ⟨5 + t, 12, 2⟩).Nodup) :=
  divide_workers_partition 3 5 12 2 (by decide)

/-- C1, evaluated on the code.  The driver gives every eliminate worker the
same `start`, `end_row + chunk_size * i`.  For a `2 × 2` matrix, `T = 2` and
pivot row 0, workers 0 and 1 sweep `[2, 3)` and `[2, 4)`: offset 2 is in both.
For a `3 × 3` matrix, `T = 1` and pivot row 1, the only worker sweeps nothing,
although the sub-matrix below row 1 is `[6, 9)`. -/
theorem eliminate_ranges_overlap_and_gap :
    eliminate_range 2 (elim_data 2 ⟨2, 2, mem_of 0 [2, 4, 1, 3]⟩ 0 0) 2 2 = [2] ∧
    eliminate_range 2 (elim_data 2 ⟨2, 2, mem_of 0 [2, 4, 1, 3]⟩ 0 1) 2 2 = [2, 3] ∧
    eliminate_range 1 (elim_data 1 ⟨3, 3, mem_of 0 [1, 1, 1, 2, 4, 8, 1, 1, 1]⟩ 1 0) 3 3 = [] := by
  refine ⟨?_, ?_, ?_⟩ <;> decide

/-- C10, evaluated on the code.  For a `4 × 4` matrix, `T = 2` and pivot row 2
the driver starts worker 0 at offset 16 with `chunk_size = 2`; the worker uses
the offsets 18, 16, 12, 17, 13, of which 16, 17 and 18 are not below
`num_rows * num_columns = 16`. -/
theorem eliminate_offsets_out_of_range :
    eliminate_offsets 2 (elim_data 2 ⟨4, 4, mem_of 0 []⟩ 2 0) 4 4 = [18, 16, 12, 17, 13] ∧
    ¬ ((16 : Int) < ((4 * 4 : Nat) : Int)) := by
  refine ⟨?_, ?_⟩ <;> decide

/-- C3, evaluated on the code.  For the `3 × 3` matrix with rows `[1, 1, 1]`,
`[2, 4, 8]`, `[1, 1, 1]`, `T = 1` and pivot row 1, the normalize phase leaves
`U[1][1] = 1` and `U[1][2] = 4`, which is the old `U[1][2]` divided by the old
`U[1][0] = 2`, not by the old diagonal element `U[1][1] = 4`. -/
theorem normalize_divides_by_left_neighbour :
    normalize_phase 1 ⟨3, 3, mem_of 0 [1, 1, 1, 2, 4, 8, 1, 1, 1]⟩ 1 4 = 1 ∧
    normalize_phase 1 ⟨3, 3, mem_of 0 [1, 1, 1, 2, 4, 8, 1, 1, 1]⟩ 1 5 = 4 ∧
    mem_of 0 [1, 1, 1, 2, 4, 8, 1, 1, 1] 5 / mem_of 0 [1, 1, 1, 2, 4, 8, 1, 1, 1] 3 = 4 ∧
    mem_of 0 [1, 1, 1, 2, 4, 8, 1, 1, 1] 5 / mem_of 0 [1, 1, 1, 2, 4, 8, 1, 1, 1] 4 = 2 := by
  refine ⟨?_, ?_, ?_, ?_⟩ <;> decide!

/-- C2, evaluated on the code.  On the `2 × 2` input `[[2, 4], [1, 3]]`
sequential Gaussian elimination gives `[[1, 2], [0, 1]]`, but with `T = 1` the
driver leaves `[[1, 4 / p], [1 - p, 1]]`, where `p` is the value found at offset
`-1`: whatever that value is, the result is not `[[1, 2], [0, 1]]`. -/
theorem gauss_differs_from_sequential :
    read_buffer (gauss_spec 2 (mem_of 0 [2, 4, 1, 3])) 4 = [1, 2, 0, 1] ∧
    ¬ ∃ pre : ℚ,
      read_buffer (gauss_eliminate_using_pthreads 1 ⟨2, 2, mem_of pre [2, 4, 1, 3]⟩).elements 4
        = [1, 2, 0, 1] := by
  refine ⟨by decide!, ?_⟩
  rintro ⟨pre, h⟩
  simp [read_buffer, gauss_eliminate_using_pthreads, gauss_iterations, pivot_iteration,
    normalize_phase, eliminate_phase, div_data, elim_data, divide, divide_indices,
    divide_visits, eliminate, eliminate_range, eliminate_body, store, mem_of,
    List.range_succ, List.range'_succ] at h
  obtain ⟨h1, h2⟩ := h
  have hp : pre = 1 := by linarith
  rw [hp] at h1
  norm_num at h1


namespace Checked

theorem store_in_range {F : Type} (size : Nat) (m : Int → F) (a : Nat) (v : F) (h : a < size) :
    store size m (a : Int) v = some (fun b => if b = (a : Int) then v else m b) := by
  unfold store
  rw [if_pos]
  constructor <;> omega

/-- A loop of checked stores `elements[i] = val (elements[i])` over distinct
offsets inside the buffer has a result, and it applies `val` exactly once at
each offset of the list. -/
theorem foldlM_store_spec {F : Type} (size : Nat) (val : F → F) :
    ∀ (l : List Nat) (m : Int → F), l.Nodup → (∀ k ∈ l, k < size) →
      ∃ m2, l.foldlM (fun (m : Int → F) (i : Nat) => store size m (i : Int) (val (m (i : Int)))) m
          = some m2 ∧
        ∀ a : Int, m2 a = if (∃ k ∈ l, (k : Int) = a) then val (m a) else m a := by
  intro l
  induction l with
  | nil =>
    intro m _ _
    exact ⟨m, rfl, fun a => by simp⟩
  | cons x xs ih =>
    intro m hnd hin
    have hx : x ∉ xs := (List.nodup_cons.mp hnd).1
    obtain ⟨m2, h2, hspec⟩ := ih (fun b => if b = (x : Int) then val (m (x : Int)) else m b)
      (List.nodup_cons.mp hnd).2 (fun k hk => hin k (List.mem_cons_of_mem _ hk))
    refine ⟨m2, ?_, ?_⟩
    · rw [List.foldlM_cons, store_in_range size m x _ (hin x (List.mem_cons_self _ _))]
      exact h2
    · intro a
      rw [hspec a]
      by_cases hax : a = (x : Int)
      · subst hax
        have hno : ¬ ∃ k ∈ xs, (k : Int) = (x : Int) := by
          rintro ⟨k, hk, hkx⟩
          have : k = x := Int.ofNat.inj hkx
          exact hx (this ▸ hk)
        rw [if_neg hno, if_pos rfl, if_pos ⟨x, List.mem_cons_self _ _, rfl⟩]
      · have hiff : (∃ k ∈ x :: xs, (k : Int) = a) ↔ ∃ k ∈ xs, (k : Int) = a := by
          constructor
          · rintro ⟨k, hk, hka⟩
            rcases List.mem_cons.mp hk with rfl | hk
            · exact absurd hka.symm hax
            · exact ⟨k, hk, hka⟩
          · rintro ⟨k, hk, hka⟩
            exact ⟨k, List.mem_cons_of_mem _ hk, hka⟩
        simp only [hiff, if_neg hax]

/-- A `divide` worker whose range ends inside the buffer has a result: every
visited cell is divided once by `piv_element`, every other cell is unchanged. -/
theorem divide_spec {F : Type} (ops : FloatOps F) (size T : Nat) (d : divide_data_t F)
    (m : Int → F) (hT : 1 ≤ T) (hend : d.end_ ≤ size) :
    ∃ m2, divide ops size T d m = some m2 ∧
      ∀ a : Int, m2 a =
        if (∃ k ∈ divide_visits T d.end_ (d.end_ - d.start) d.start, (k : Int) = a)
        then ops.div (m a) d.piv_element else m a := by
  unfold divide
  exact foldlM_store_spec size (fun x => ops.div x d.piv_element) _ m
    (nodup_divide_visits T d.end_ hT _ _)
    (fun k hk => lt_of_lt_of_le (divide_visits_bounds _ _ _ _ _ hk).2 hend)

/-- The divide workers `js` of one phase, run one after the other. -/
theorem divide_workers_spec {F : Type} (ops : FloatOps F) (size T start stop : Nat) (piv : F)
    (hT : 1 ≤ T) (hend : stop ≤ size) :
    ∀ (js : List Nat) (m : Int → F), js.Nodup → (∀ j ∈ js, j < T) →
      ∃ m2, js.foldlM (fun m j => divide ops size T ⟨start + j, stop, piv⟩ m) m = some m2 ∧
        ∀ a : Int, m2 a =
          if (∃ j ∈ js, ∃ k ∈ divide_visits T stop (stop - (start + j)) (start + j), (k : Int) = a)
          then ops.div (m a) piv else m a := by
  intro js
  induction js with
  | nil =>
    intro m _ _
    exact ⟨m, rfl, fun a => by simp⟩
  | cons j js ih =>
    intro m hnd hlt
    obtain ⟨m1, h1, hspec1⟩ := divide_spec ops size T ⟨start + j, stop, piv⟩ m hT hend
    obtain ⟨m2, h2, hspec2⟩ := ih m1 (List.nodup_cons.mp hnd).2
      (fun j2 hj2 => hlt j2 (List.mem_cons_of_mem _ hj2))
    refine ⟨m2, ?_, ?_⟩
    · rw [List.foldlM_cons, h1]
      exact h2
    · intro a
      rw [hspec2 a, hspec1 a]
      simp only
      by_cases hj : ∃ k ∈ divide_visits T stop (stop - (start + j)) (start + j), (k : Int) = a
      · have hno : ¬ ∃ j2 ∈ js, ∃ k ∈ divide_visits T stop (stop - (start + j2)) (start + j2),
            (k : Int) = a := by
          rintro ⟨j2, hj2, k2, hk2, hka2⟩
          obtain ⟨k, hk, hka⟩ := hj
          have hkk : k2 = k := Int.ofNat.inj (hka2.trans hka.symm)
          subst hkk
          obtain ⟨_, q, hq⟩ := (mem_divide_visits T stop hT _ _ k2 (le_refl _)).mp hk
          obtain ⟨_, q2, hq2⟩ := (mem_divide_visits T stop hT _ _ k2 (le_refl _)).mp hk2
          have hjT := hlt j (List.mem_cons_self _ _)
          have hj2T := hlt j2 (List.mem_cons_of_mem _ hj2)
          have e1 : (k2 - start) % T = j := by
            have : k2 - start = j + q * T := by omega
            rw [this, Nat.add_mul_mod_self_right, Nat.mod_eq_of_lt hjT]
          have e2 : (k2 - start) % T = j2 := by
            have : k2 - start = j2 + q2 * T := by omega
            rw [this, Nat.add_mul_mod_self_right, Nat.mod_eq_of_lt hj2T]
          have : j2 = j := e2.symm.trans e1
          exact (List.nodup_cons.mp hnd).1 (this ▸ hj2)
        rw [if_neg hno, if_pos hj, if_pos ⟨j, List.mem_cons_self _ _, hj⟩]
      · rw [if_neg hj]
        have hiff : (∃ j2 ∈ j :: js,
            ∃ k ∈ divide_visits T stop (stop - (start + j2)) (start + j2), (k : Int) = a) ↔
            ∃ j2 ∈ js, ∃ k ∈ divide_visits T stop (stop - (start + j2)) (start + j2),
              (k : Int) = a := by
          constructor
          · rintro ⟨j2, hj2, hk⟩
            rcases List.mem_cons.mp hj2 with rfl | hj2
            · exact absurd hk hj
            · exact ⟨j2, hj2, hk⟩
          · rintro ⟨j2, hj2, hk⟩
            exact ⟨j2, List.mem_cons_of_mem _ hj2, hk⟩
        simp only [hiff]

/-- Some divide worker visits `a` exactly when `a` lies in `[start, stop)`. -/
theorem divide_workers_cover (T start stop : Nat) (hT : 1 ≤ T) (a : Int) :
    (∃ j ∈ List.range T, ∃ k ∈ divide_visits T stop (stop - (start + j)) (start + j),
      (k : Int) = a) ↔ ((start : Int) ≤ a ∧ a < (stop : Int)) := by
  constructor
  · rintro ⟨j, _, k, hk, rfl⟩
    have := divide_visits_bounds _ _ _ _ _ hk
    omega
  · rintro ⟨h1, h2⟩
    obtain ⟨k, rfl⟩ : ∃ k : Nat, (k : Int) = a := ⟨a.toNat, by omega⟩
    have hk1 : start ≤ k := by omega
    have hk2 : k < stop := by omega
    refine ⟨(k - start) % T, List.mem_range.mpr (Nat.mod_lt _ hT), k, ?_, rfl⟩
    rw [mem_divide_visits T stop hT _ _ k (le_refl _)]
    refine ⟨hk2, (k - start) / T, ?_⟩
    have := Nat.mod_add_div (k - start) T
    rw [Nat.mul_comm] at this
    omega

/-- The normalize phase of row `i < n` of an `n × n` matrix has a result: the
diagonal cell holds `one`, every cell of row `i` right of the diagonal holds its
old value divided by `piv_element`, and every other cell is unchanged. -/
theorem normalize_phase_spec {F : Type} (ops : FloatOps F) (T n : Nat) (U : Matrix F) (i : Nat)
    (hr : U.num_rows = n) (hc : U.num_columns = n) (hT : 1 ≤ T) (hi : i < n) :
    ∃ m2, normalize_phase ops T U i = some m2 ∧
      ∀ a : Int, m2 a =
        if a = ((i * n + i : Nat) : Int) then ops.one
        else if ((i * n + i : Nat) : Int) < a ∧ a < (((i + 1) * n : Nat) : Int) then
          ops.div (U.elements a) (U.elements (((i * n + i : Nat) : Int) - 1))
        else U.elements a := by
  have hmul : (i + 1) * n ≤ n * n := Nat.mul_le_mul_right n hi
  have hdiag : i * n + i < n * n := by
    have : i * n + i < (i + 1) * n := by rw [Nat.add_mul, Nat.one_mul]; omega
    omega
  obtain ⟨m2, h2, hspec⟩ := divide_workers_spec ops (n * n) T (i * n + i + 1) ((i + 1) * n)
    (U.elements (((i * n + i : Nat) : Int) - 1)) hT hmul (List.range T)
    (fun b => if b = ((i * n + i : Nat) : Int) then ops.one else U.elements b)
    (List.nodup_range T) (fun j hj => List.mem_range.mp hj)
  refine ⟨m2, ?_, ?_⟩
  · unfold normalize_phase
    rw [hr, hc, store_in_range (n * n) _ _ _ hdiag]
    simp only [Option.bind_eq_bind, Option.some_bind, div_data, hc]
    exact h2
  · intro a
    have hcov := divide_workers_cover T (i * n + i + 1) ((i + 1) * n) hT a
    rw [hspec a]
    by_cases h1 : a = ((i * n + i : Nat) : Int)
    · rw [if_neg (fun h => by have := hcov.mp h; omega), if_pos h1, if_pos h1]
    · rw [if_neg h1]
      by_cases h2 : ((i * n + i : Nat) : Int) < a ∧ a < (((i + 1) * n : Nat) : Int)
      · rw [if_pos (hcov.mpr (by omega)), if_neg h1, if_pos h2]
      · rw [if_neg (fun h => h2 (by have := hcov.mp h; omega)), if_neg h1, if_neg h2]


theorem eliminate_refresh_elements {F : Type} (ops : FloatOps F) (d : elim_data_t F)
    (num_columns : Nat) (s : elim_state F) (i : Nat) :
    (eliminate_refresh ops d num_columns s i).elements = s.elements := by
  unfold eliminate_refresh
  simp only
  split <;> rfl

/-- A sweep of `eliminate` over offsets inside the buffer has a result and
leaves every offset it does not sweep unchanged. -/
theorem eliminate_fold_spec {F : Type} (ops : FloatOps F) (size : Nat) (d : elim_data_t F)
    (num_columns : Nat) :
    ∀ (l : List Nat) (s : elim_state F), (∀ k ∈ l, k < size) →
      ∃ s2, l.foldlM (eliminate_body ops size d num_columns) s = some s2 ∧
        ∀ a : Int, (∀ k ∈ l, (k : Int) ≠ a) → s2.elements a = s.elements a := by
  intro l
  induction l with
  | nil =>
    intro s _
    exact ⟨s, rfl, fun _ _ => rfl⟩
  | cons x xs ih =>
    intro s hin
    have hstep : ∃ s1, eliminate_body ops size d num_columns s x = some s1 ∧
        ∀ a : Int, (x : Int) ≠ a → s1.elements a = s.elements a := by
      unfold eliminate_body
      simp only
      rw [store_in_range size _ x _ (hin x (List.mem_cons_self _ _))]
      refine ⟨_, rfl, ?_⟩
      intro a ha
      simp only [if_neg (Ne.symm ha), eliminate_refresh_elements]
    obtain ⟨s1, h1, hs1⟩ := hstep
    obtain ⟨s2, h2, hs2⟩ := ih s1 (fun k hk => hin k (List.mem_cons_of_mem _ hk))
    refine ⟨s2, ?_, ?_⟩
    · rw [List.foldlM_cons, h1]
      exact h2
    · intro a ha
      rw [hs2 a (fun k hk => ha k (List.mem_cons_of_mem _ hk)),
        hs1 a (ha x (List.mem_cons_self _ _))]

/-- The range of an `eliminate` worker lies inside the buffer when the worker is
the only one or when `chunk_size` is 0, and it never starts before `start`. -/
theorem eliminate_range_in_buffer {F : Type} (T : Nat) (d : elim_data_t F)
    (num_columns num_rows : Nat) (h : T = 1 ∨ d.chunk_size = 0) :
    ∀ k ∈ eliminate_range T d num_columns num_rows,
      k < num_rows * num_columns ∧ d.start ≤ k := by
  intro k hk
  unfold eliminate_range at hk
  split at hk
  · rename_i hlt
    rcases h with h | h
    · subst h; omega
    · rw [h] at hk
      simp at hk
  · have := List.mem_range'_1.mp hk
    rw [Nat.mul_comm num_rows num_columns]
    omega

/-- The eliminate workers `js` of one phase, run one after the other, have a
result and leave every offset before their common `start` unchanged. -/
theorem eliminate_workers_spec {F : Type} (ops : FloatOps F) (T : Nat) (U : Matrix F) (i : Nat)
    (h : T = 1 ∨ (U.num_rows * U.num_columns - (i + 1) * U.num_columns) / T = 0) :
    ∀ (js : List Nat) (m : Int → F),
      ∃ m2, js.foldlM
          (fun m j => eliminate ops T (elim_data T U i j) U.num_columns U.num_rows m) m = some m2 ∧
        ∀ a : Int, a < (((i + 1) * U.num_columns : Nat) : Int) → m2 a = m a := by
  intro js
  induction js with
  | nil =>
    intro m
    exact ⟨m, rfl, fun _ _ => rfl⟩
  | cons j js ih =>
    intro m
    have hrange := eliminate_range_in_buffer T (elim_data T U i j) U.num_columns U.num_rows h
    obtain ⟨s1, h1, hs1⟩ := eliminate_fold_spec ops (U.num_rows * U.num_columns)
      (elim_data T U i j) U.num_columns _ { elim_val := ops.zero, elim_row := -1, elements := m }
      (fun k hk => (hrange k hk).1)
    obtain ⟨m2, h2, hs2⟩ := ih s1.elements
    refine ⟨m2, ?_, ?_⟩
    · rw [List.foldlM_cons]
      unfold eliminate
      rw [h1]
      exact h2
    · intro a ha
      rw [hs2 a ha, hs1 a]
      intro k hk
      have := (hrange k hk).2
      simp only [elim_data] at this
      have h3 : (i + 1) * U.num_columns ≤ k := le_trans (Nat.le_add_right _ _) this
      omega

/-- One iteration of the pivot loop on an `n × n` matrix, for a single worker
or at least `n * n` workers: it has a result of the same shape, the diagonal
cell of row `i` holds `one`, and every cell before it is unchanged. -/
theorem pivot_iteration_spec {F : Type} (ops : FloatOps F) (T n : Nat) (U : Matrix F) (i : Nat)
    (hr : U.num_rows = n) (hc : U.num_columns = n) (hT : T = 1 ∨ n * n ≤ T) (hi : i < n) :
    ∃ V, pivot_iteration ops T U i = some V ∧ V.num_rows = n ∧ V.num_columns = n ∧
      V.elements ((i * n + i : Nat) : Int) = ops.one ∧
      ∀ a : Int, a < ((i * n + i : Nat) : Int) → V.elements a = U.elements a := by
  have hT1 : 1 ≤ T := by
    rcases hT with h | h
    · omega
    · have : 1 ≤ n * n := Nat.mul_pos (by omega) (by omega)
      omega
  obtain ⟨m1, h1, hs1⟩ := normalize_phase_spec ops T n U i hr hc hT1 hi
  have hchunk : T = 1 ∨ (U.num_rows * U.num_columns - (i + 1) * U.num_columns) / T = 0 := by
    rcases hT with h | h
    · exact Or.inl h
    · right
      rw [hr, hc]
      apply Nat.div_eq_of_lt
      have : 0 < (i + 1) * n := Nat.mul_pos (by omega) (by omega)
      omega
  obtain ⟨m2, h2, hs2⟩ := eliminate_workers_spec ops T U i hchunk (List.range T) m1
  have hlt : ((i * n + i : Nat) : Int) < (((i + 1) * n : Nat) : Int) := by
    have : i * n + i < (i + 1) * n := by rw [Nat.add_mul, Nat.one_mul]; omega
    omega
  have hd1 : m1 ((i * n + i : Nat) : Int) = ops.one := by rw [hs1, if_pos rfl]
  have hb1 : ∀ a : Int, a < ((i * n + i : Nat) : Int) → m1 a = U.elements a := by
    intro a ha
    rw [hs1, if_neg (by omega), if_neg (by omega)]
  unfold pivot_iteration
  rw [h1]
  simp only [Option.bind_eq_bind, Option.some_bind]
  by_cases hlast : i ≠ U.num_rows - 1
  · rw [if_pos hlast]
    unfold eliminate_phase
    rw [h2]
    refine ⟨_, rfl, hr, hc, ?_, ?_⟩
    · show m2 _ = _
      rw [hs2 _ (by rw [hc]; exact hlt), hd1]
    · intro a ha
      show m2 a = _
      rw [hs2 a (by rw [hc]; omega), hb1 a ha]
  · rw [if_neg hlast]
    exact ⟨_, rfl, hr, hc, hd1, hb1⟩

theorem gauss_iterations_step {F : Type} (ops : FloatOps F) (T : Nat) (U : Matrix F) (k : Nat) :
    gauss_iterations ops T U (k + 1) =
      (gauss_iterations ops T U k).bind (fun V => pivot_iteration ops T V k) := by
  unfold gauss_iterations
  rw [List.range_succ, List.foldlM_append]
  simp only [List.foldlM_cons, List.foldlM_nil, Option.bind_eq_bind]
  cases List.foldlM (pivot_iteration ops T) U (List.range k) with
  | none => rfl
  | some V => simp

/-- The first `k ≤ n` iterations of the pivot loop on an `n × n` matrix, for a
single worker or at least `n * n` workers: they have a result of the same
shape, in which the first `k` diagonal cells hold `one`. -/
theorem gauss_iterations_spec {F : Type} (ops : FloatOps F) (T n : Nat) (els : Int → F)
    (hT : T = 1 ∨ n * n ≤ T) :
    ∀ k, k ≤ n → ∃ V, gauss_iterations ops T ⟨n, n, els⟩ k = some V ∧
      V.num_rows = n ∧ V.num_columns = n ∧
      ∀ r, r < k → V.elements ((r * n + r : Nat) : Int) = ops.one := by
  intro k
  induction k with
  | zero =>
    intro _
    exact ⟨⟨n, n, els⟩, rfl, rfl, rfl, fun r hr => by omega⟩
  | succ k ih =>
    intro hk
    obtain ⟨V, hV, hr, hc, hdiag⟩ := ih (by omega)
    obtain ⟨W, hW, hr2, hc2, hd2, hb2⟩ := pivot_iteration_spec ops T n V k hr hc hT (by omega)
    refine ⟨W, ?_, hr2, hc2, ?_⟩
    · rw [gauss_iterations_step, hV]
      exact hW
    · intro r hrk
      by_cases hrk2 : r = k
      · subst hrk2; exact hd2
      · have hlt : r < k := by omega
        have hmul : r * n ≤ k * n := Nat.mul_le_mul_right n (le_of_lt hlt)
        rw [hb2 _ (by omega)]
        exact hdiag r hlt


theorem div_mod_of_eq (nc q c x : Nat) (hc : c < nc) (hx : x = q * nc + c) :
    x / nc = q ∧ x % nc = c := by
  subst hx
  have hpos : 0 < nc := by omega
  constructor
  · rw [Nat.add_comm, Nat.add_mul_div_right _ _ hpos, Nat.div_eq_of_lt hc, Nat.zero_add]
  · rw [Nat.add_comm, Nat.add_mul_mod_self_right, Nat.mod_eq_of_lt hc]

/-- The cached and the recomputing sweep over `[a, a + len)`, started from
states that agree on the safe offsets and in which the cached factor is
current, both have a result, and the results agree on the safe offsets. -/
theorem eliminate_fold_cache {F : Type} (ops : FloatOps F) (size : Nat) (d : elim_data_t F)
    (nc s0 e : Nat) (hcol : d.num_iter < nc) (he : e ≤ size) :
    ∀ (len a : Nat) (s : elim_state F) (m : Int → F), a + len = e → s0 ≤ a →
      (∀ off : Int, (∀ k : Nat, s0 ≤ k → k < e → (k : Int) = off →
          cache_safe nc d.num_iter s0 k) → s.elements off = m off) →
      (s.elim_row = -1 ∨ ∃ r : Nat, s.elim_row = (r : Int) ∧
        (r = a / nc → cache_safe nc d.num_iter s0 a →
          s.elim_val = ops.div d.piv_element
            (s.elements (((r * nc + d.num_iter : Nat)) : Int)))) →
      ∃ s2 m2, (List.range' a len).foldlM (eliminate_body ops size d nc) s = some s2 ∧
        (List.range' a len).foldlM (eliminate_body_recompute ops size d nc) m = some m2 ∧
        ∀ off : Int, (∀ k : Nat, s0 ≤ k → k < e → (k : Int) = off →
          cache_safe nc d.num_iter s0 k) → s2.elements off = m2 off := by
  intro len
  induction len with
  | zero =>
    intro a s m _ _ hagree _
    exact ⟨s, m, rfl, rfl, hagree⟩
  | succ len ih =>
    intro a s m hae hs0 hagree hfac
    have hpos : 0 < nc := by omega
    have ha_lt : a < size := by omega
    -- the row and column of `a`
    have hdm : nc * (a / nc) + a % nc = a := Nat.div_add_mod a nc
    have hcl : a % nc < nc := Nat.mod_lt _ hpos
    have hrow : a = a / nc * nc + a % nc := by rw [Nat.mul_comm]; exact hdm.symm
    -- the pivot-column cell of the row of `a` is safe
    have hsafe_piv : ∀ k : Nat, s0 ≤ k → k < e →
        (k : Int) = ((a / nc * nc + d.num_iter : Nat) : Int) →
        cache_safe nc d.num_iter s0 k := by
      intro k _ _ hk
      have hk2 : k = a / nc * nc + d.num_iter := Int.ofNat.inj hk
      left
      rw [(div_mod_of_eq nc (a / nc) d.num_iter k hcol hk2).2]
    have hpiv_eq : s.elements ((a / nc * nc + d.num_iter : Nat) : Int) =
        m ((a / nc * nc + d.num_iter : Nat) : Int) := hagree _ hsafe_piv
    -- the state after the refresh
    have hrefresh_row : (eliminate_refresh ops d nc s a).elim_row = ((a / nc : Nat) : Int) := by
      unfold eliminate_refresh
      simp only
      split
      · rfl
      · rename_i h
        exact (not_not.mp h).symm
    have hrefresh_val : cache_safe nc d.num_iter s0 a →
        (eliminate_refresh ops d nc s a).elim_val =
          ops.div d.piv_element (s.elements ((a / nc * nc + d.num_iter : Nat) : Int)) := by
      intro hsafe
      unfold eliminate_refresh
      simp only
      split
      · simp only [Nat.cast_add, Nat.cast_mul]
      · rename_i h
        have hr : ((a / nc : Nat) : Int) = s.elim_row := not_not.mp h
        rcases hfac with h1 | ⟨r, hr2, hv⟩
        · exfalso
          have h0 := Int.ofNat_nonneg (a / nc)
          rw [hr, h1] at h0
          exact absurd h0 (by decide)
        · have hrr : r = a / nc := by
            have : ((a / nc : Nat) : Int) = (r : Int) := by rw [hr, hr2]
            exact (Int.ofNat.inj this).symm
          rw [hv hrr hsafe, hrr]
    -- both bodies store inside the buffer
    have hb1 : eliminate_body ops size d nc s a = some
        { elim_val := (eliminate_refresh ops d nc s a).elim_val
          elim_row := (eliminate_refresh ops d nc s a).elim_row
          elements := fun b => if b = (a : Int) then
              ops.sub (s.elements (a : Int))
                (ops.mul (eliminate_refresh ops d nc s a).elim_val
                  (s.elements ((a : Int) - (nc : Int))))
            else s.elements b } := by
      unfold eliminate_body
      simp only [eliminate_refresh_elements]
      rw [store_in_range size _ a _ ha_lt]
      rfl
    have hb2 : eliminate_body_recompute ops size d nc m a = some
        (fun b => if b = (a : Int) then
            ops.sub (m (a : Int))
              (ops.mul (ops.div d.piv_element (m ((a / nc * nc + d.num_iter : Nat) : Int)))
                (m ((a : Int) - (nc : Int))))
          else m b) := by
      unfold eliminate_body_recompute
      simp only
      rw [store_in_range size _ a _ ha_lt]
      simp only [Nat.cast_add, Nat.cast_mul]
    rw [List.range'_succ, List.foldlM_cons, List.foldlM_cons, hb1, hb2]
    simp only [Option.bind_eq_bind, Option.some_bind]
    apply ih (a + 1) _ _ (by omega) (by omega)
    · -- the memories still agree on the safe offsets
      intro off hoff
      simp only
      by_cases hoa : off = (a : Int)
      · rw [if_pos hoa, if_pos hoa]
        have hsafe_a : cache_safe nc d.num_iter s0 a := hoff a hs0 (by omega) hoa.symm
        have h1 : s.elements (a : Int) = m (a : Int) := by
          apply hagree
          intro k _ _ hk
          have : k = a := Int.ofNat.inj hk
          rw [this]; exact hsafe_a
        have h2 : s.elements ((a : Int) - (nc : Int)) = m ((a : Int) - (nc : Int)) := by
          apply hagree
          intro k hk0 _ hk
          have hka : a = k + nc := by omega
          have hq : 1 ≤ a / nc := by
            rw [Nat.le_div_iff_mul_le hpos]; omega
          have hk3 : k = (a / nc - 1) * nc + a % nc := by
            have : (a / nc - 1) * nc + nc = a / nc * nc := by
              rw [← Nat.succ_mul]
              congr 1
              omega
            omega
          obtain ⟨hkd, hkm⟩ := div_mod_of_eq nc (a / nc - 1) (a % nc) k hcl hk3
          unfold cache_safe at hsafe_a ⊢
          rw [hkd, hkm]
          rcases hsafe_a with h | h
          · exact Or.inl h
          · right
            have : (a / nc - 1) * nc ≤ a / nc * nc := Nat.mul_le_mul_right nc (by omega)
            omega
        rw [hrefresh_val hsafe_a, h1, h2, hpiv_eq]
      · rw [if_neg hoa, if_neg hoa]
        exact hagree off hoff
    · -- the cached factor is current for the next element
      right
      refine ⟨a / nc, hrefresh_row, ?_⟩
      intro hsame hsafe_next
      have hdm2 : nc * ((a + 1) / nc) + (a + 1) % nc = a + 1 := Nat.div_add_mod (a + 1) nc
      rw [← hsame, Nat.mul_comm] at hdm2
      have hsafe_a : cache_safe nc d.num_iter s0 a := by
        unfold cache_safe at hsafe_next ⊢
        rw [← hsame] at hsafe_next
        rcases hsafe_next with h | h
        · left; omega
        · exact Or.inr h
      have hne : ((a / nc * nc + d.num_iter : Nat) : Int) ≠ (a : Int) := by
        intro h
        have h2 : a / nc * nc + d.num_iter = a := Int.ofNat.inj h
        unfold cache_safe at hsafe_next
        rw [← hsame] at hsafe_next
        rcases hsafe_next with h3 | h3
        · omega
        · omega
      simp only
      rw [if_neg hne]
      exact hrefresh_val hsafe_a

/-- The claim-level form of `eliminate_fold_cache` for the range of a worker. -/
theorem eliminate_cache_agree {F : Type} (ops : FloatOps F) (T : Nat) (d : elim_data_t F)
    (num_columns num_rows : Nat) (m : Int → F) (hcol : d.num_iter < num_columns)
    (hin : ∀ k ∈ eliminate_range T d num_columns num_rows, k < num_rows * num_columns) :
    ∃ m1 m2, eliminate ops T d num_columns num_rows m = some m1 ∧
      eliminate_recompute ops T d num_columns num_rows m = some m2 ∧
      ∀ a : Int, (∀ k ∈ eliminate_range T d num_columns num_rows, (k : Int) = a →
        cache_safe num_columns d.num_iter d.start k) → m1 a = m2 a := by
  obtain ⟨len, hlen⟩ : ∃ len, eliminate_range T d num_columns num_rows =
      List.range' d.start len := by
    unfold eliminate_range
    split
    · exact ⟨_, rfl⟩
    · exact ⟨_, rfl⟩
  rw [hlen] at hin
  by_cases hlen0 : len = 0
  · subst hlen0
    refine ⟨m, m, ?_, ?_, fun _ _ => rfl⟩
    · unfold eliminate; rw [hlen]; rfl
    · unfold eliminate_recompute; rw [hlen]; rfl
  have he : d.start + len ≤ num_rows * num_columns := by
    have := hin (d.start + len - 1) (List.mem_range'_1.mpr ⟨by omega, by omega⟩)
    omega
  obtain ⟨s2, m2, h1, h2, hag⟩ := eliminate_fold_cache ops (num_rows * num_columns) d
    num_columns d.start (d.start + len) hcol he len d.start
    { elim_val := ops.zero, elim_row := -1, elements := m } m rfl (le_refl _)
    (fun _ _ => rfl) (Or.inl rfl)
  refine ⟨s2.elements, m2, ?_, ?_, ?_⟩
  · unfold eliminate; rw [hlen, h1]; rfl
  · unfold eliminate_recompute; rw [hlen]; exact h2
  · intro a ha
    apply hag
    intro k hk1 hk2 hka
    exact ha k (hlen ▸ List.mem_range'_1.mpr ⟨hk1, hk2⟩) hka


/-- The run for a single worker or at least `n * n` workers, together with what
the normalize phase of row `i` does to that row. -/
theorem gauss_run_spec {F : Type} (ops : FloatOps F) (T n : Nat) (els : Int → F) (i : Nat)
    (hT : T = 1 ∨ n * n ≤ T) (hi : i < n) :
    ∃ V m M, gauss_iterations ops T ⟨n, n, els⟩ i = some V ∧
      normalize_phase ops T V i = some m ∧
      gauss_eliminate_using_pthreads ops T ⟨n, n, els⟩ = some M ∧
      M.num_rows = n ∧ M.num_columns = n ∧
      m ((i * n + i : Nat) : Int) = ops.one ∧
      (∀ c, i < c → c < n → m ((i * n + c : Nat) : Int) =
        ops.div (V.elements ((i * n + c : Nat) : Int)) (div_data V i 0).piv_element) ∧
      M.elements ((i * n + i : Nat) : Int) = ops.one := by
  have hT1 : 1 ≤ T := by
    rcases hT with h | h
    · omega
    · have : 1 ≤ n * n := Nat.mul_pos (by omega) (by omega)
      omega
  obtain ⟨V, hV, hr, hc, _⟩ := gauss_iterations_spec ops T n els hT i (le_of_lt hi)
  obtain ⟨m, hm, hspec⟩ := normalize_phase_spec ops T n V i hr hc hT1 hi
  obtain ⟨M, hM, hMr, hMc, hMd⟩ := gauss_iterations_spec ops T n els hT n (le_refl _)
  refine ⟨V, m, M, hV, hm, hM, hMr, hMc, ?_, ?_, hMd i hi⟩
  · rw [hspec, if_pos rfl]
  · intro c hc1 hc2
    have h1 : ((i * n + c : Nat) : Int) ≠ ((i * n + i : Nat) : Int) := by omega
    have h2 : ((i * n + i : Nat) : Int) < ((i * n + c : Nat) : Int) ∧
        ((i * n + c : Nat) : Int) < (((i + 1) * n : Nat) : Int) := by
      have : (i + 1) * n = i * n + n := by rw [Nat.add_mul, Nat.one_mul]
      omega
    rw [hspec, if_neg h1, if_pos h2]
    simp only [div_data, hc]

theorem FVal.div_zero_not_finite (x : FVal) :
    (FVal.div x (.fin 0)).is_finite = false := by
  cases x with
  | fin q =>
    by_cases hq : q = 0
    · simp [FVal.div, hq, FVal.is_finite]
    · by_cases hpos : 0 < q
      · simp [FVal.div, hq, hpos, FVal.signed_inf, FVal.is_finite]
      · simp [FVal.div, hq, hpos, FVal.signed_inf, FVal.is_finite]
  | pinf => simp [FVal.div, FVal.signed_inf, FVal.is_finite]
  | ninf => simp [FVal.div, FVal.signed_inf, FVal.is_finite]
  | nan => simp [FVal.div, FVal.is_finite]

/-- The loop of `check_results` returns 0 exactly when the comparison is false
at every remaining index, and -1 otherwise. -/
theorem check_results_from_spec {F : Type} (ops : FloatOps F) (A B : Nat → F) (tol : F) :
    ∀ (r i : Nat),
      (check_results_from ops A B tol i r = 0 ↔
        ∀ k, i ≤ k → k < i + r → ops.gt (ops.fabsf (ops.sub (A k) (B k))) tol = false) ∧
      (check_results_from ops A B tol i r = 0 ∨ check_results_from ops A B tol i r = -1) := by
  intro r
  induction r with
  | zero =>
    intro i
    refine ⟨⟨fun _ k h1 h2 => by omega, fun _ => rfl⟩, Or.inl rfl⟩
  | succ r ih =>
    intro i
    unfold check_results_from
    by_cases h : ops.gt (ops.fabsf (ops.sub (A i) (B i))) tol = true
    · rw [if_pos h]
      refine ⟨⟨fun h0 => by simp at h0, fun hall => ?_⟩, Or.inr rfl⟩
      have := hall i (le_refl _) (by omega)
      rw [h] at this
      exact absurd this (by decide)
    · rw [if_neg h]
      refine ⟨?_, (ih (i + 1)).2⟩
      rw [(ih (i + 1)).1]
      constructor
      · intro hall k h1 h2
        by_cases hk : k = i
        · subst hk; exact Bool.eq_false_iff.mpr h
        · exact hall k (by omega) (by omega)
      · intro hall k h1 h2
        exact hall k (by omega) (by omega)

/-! ## The claims settled on the checked layer -/

/-- C5, as stated, fails.  Take the `4 × 4` matrix with rows `[2, 0, 4, 6]`,
`[1, 0, 3, 5]`, `[1, 0, 2, 7]`, `[1, 0, 1, 1]` (its second column is zero) and
`T = 1`.  With the value 2 at offset `-1` the run returns the buffer below, in
which `U[2][3]` is `9 / 0 = +inf`.  For every finite non-zero value `p` at offset
`-1` the pivot value read at pivot row 2 is 0, the normalize phase of row 2
leaves a non-finite value in `U[2][3]`, and the run returns a matrix. -/
theorem zero_pivot_divides_and_returns :
    (gauss_eliminate_using_pthreads ieee_ops 1
        ⟨4, 4, ieee_mem 2 [2, 0, 4, 6, 1, 0, 3, 5, 1, 0, 2, 7, 1, 0, 1, 1]⟩).map
        (fun M => read_buffer M.elements 16) =
      some [.fin 1, .fin 0, .fin 2, .fin 3, .fin (-1), .fin 1, .fin 1, .fin 1,
        .fin 3, .fin 0, .fin 1, .pinf, .fin (-5), .fin 0, .fin (-7), .fin 1] ∧
    (∀ p : ℚ, p ≠ 0 →
      pivot_value ieee_ops 1
        ⟨4, 4, ieee_mem p [2, 0, 4, 6, 1, 0, 3, 5, 1, 0, 2, 7, 1, 0, 1, 1]⟩ 2 = some (.fin 0) ∧
      ∃ V m M, gauss_iterations ieee_ops 1
          ⟨4, 4, ieee_mem p [2, 0, 4, 6, 1, 0, 3, 5, 1, 0, 2, 7, 1, 0, 1, 1]⟩ 2 = some V ∧
        normalize_phase ieee_ops 1 V 2 = some m ∧
        (m 11).is_finite = false ∧
        gauss_eliminate_using_pthreads ieee_ops 1
          ⟨4, 4, ieee_mem p [2, 0, 4, 6, 1, 0, 3, 5, 1, 0, 2, 7, 1, 0, 1, 1]⟩ = some M) := by
  refine ⟨by decide!, ?_⟩
  intro p hp
  have hpiv : pivot_value ieee_ops 1
      ⟨4, 4, ieee_mem p [2, 0, 4, 6, 1, 0, 3, 5, 1, 0, 2, 7, 1, 0, 1, 1]⟩ 2 = some (.fin 0) := by
    simp [pivot_value, gauss_iterations, pivot_iteration, normalize_phase, eliminate_phase,
      div_data, elim_data, divide, divide_visits, eliminate, eliminate_range, eliminate_body,
      eliminate_refresh, store, ieee_mem, mem_of, ieee_ops, FVal.div, FVal.sub, FVal.mul,
      List.range_succ, List.range'_succ, hp]
  refine ⟨hpiv, ?_⟩
  obtain ⟨V, m, M, hV, hm, hM, _, _, _, hrow, _⟩ := gauss_run_spec ieee_ops 1 4
    (ieee_mem p [2, 0, 4, 6, 1, 0, 3, 5, 1, 0, 2, 7, 1, 0, 1, 1]) 2 (Or.inl rfl) (by decide)
  refine ⟨V, m, M, hV, hm, ?_, hM⟩
  have hz : (div_data V 2 0).piv_element = .fin 0 := by
    unfold pivot_value at hpiv
    rw [hV] at hpiv
    exact Option.some.inj hpiv
  have h11 := hrow 3 (by decide) (by decide)
  rw [hz] at h11
  have : m 11 = FVal.div (V.elements 11) (.fin 0) := h11
  rw [this]
  exact FVal.div_zero_not_finite _

/-- C5, amended.  `gauss_eliminate_using_pthreads` does not detect a zero pivot.
For every square `n × n` matrix with `n ≤ 1024`, a single worker (`T = 1`) and
every pivot row `i < n`, whatever the pivot value `p` the driver reads there, in
particular when `p` is zero, the normalize phase of row `i` stores 1 in
`U[i][i]` and replaces every `U[i][c]`, `c > i`, by `U[i][c]` divided by `p` (an
infinity or NaN in IEEE arithmetic when `p` is zero), and the run goes on and
returns a matrix of the same shape with 1 in `U[i][i]`: no failure is
reported. -/
theorem zero_pivot_row_divided {F : Type} (ops : FloatOps F) (T n : Nat) (els : Int → F)
    (i : Nat) (p : F) (hn : n ≤ 1024) (hT : T = 1) (hi : i < n)
    (hz : pivot_value ops T ⟨n, n, els⟩ i = some p) :
    ∃ V m M, gauss_iterations ops T ⟨n, n, els⟩ i = some V ∧
      normalize_phase ops T V i = some m ∧
      m ((i * n + i : Nat) : Int) = ops.one ∧
      (∀ c, i < c → c < n → m ((i * n + c : Nat) : Int) =
        ops.div (V.elements ((i * n + c : Nat) : Int)) p) ∧
      gauss_eliminate_using_pthreads ops T ⟨n, n, els⟩ = some M ∧
      M.num_rows = n ∧ M.num_columns = n ∧
      M.elements ((i * n + i : Nat) : Int) = ops.one := by
  obtain ⟨V, m, M, hV, hm, hM, hr, hc, hd, hrow, hMd⟩ :=
    gauss_run_spec ops T n els i (Or.inl hT) hi
  have hpiv : (div_data V i 0).piv_element = p := by
    unfold pivot_value at hz
    rw [hV] at hz
    exact Option.some.inj hz
  refine ⟨V, m, M, hV, hm, hd, ?_, hM, hr, hc, hMd⟩
  intro c hc1 hc2
  rw [hrow c hc1 hc2, hpiv]

/-- Witness of C5 amended: the `4 × 4` matrix with a zero second column, the
value 2 at offset `-1`, one worker and pivot row 2. -/
theorem zero_pivot_row_divided_witness :
    pivot_value ieee_ops 1
      ⟨4, 4, ieee_mem 2 [2, 0, 4, 6, 1, 0, 3, 5, 1, 0, 2, 7, 1, 0, 1, 1]⟩ 2 = some ieee_ops.zero ∧
    ∃ V m M, gauss_iterations ieee_ops 1
        ⟨4, 4, ieee_mem 2 [2, 0, 4, 6, 1, 0, 3, 5, 1, 0, 2, 7, 1, 0, 1, 1]⟩ 2 = some V ∧
      normalize_phase ieee_ops 1 V 2 = some m ∧
      m ((2 * 4 + 2 : Nat) : Int) = ieee_ops.one ∧
      (∀ c, 2 < c → c < 4 → m ((2 * 4 + c : Nat) : Int) =
        ieee_ops.div (V.elements ((2 * 4 + c : Nat) : Int)) ieee_ops.zero) ∧
      gauss_eliminate_using_pthreads ieee_ops 1
        ⟨4, 4, ieee_mem 2 [2, 0, 4, 6, 1, 0, 3, 5, 1, 0, 2, 7, 1, 0, 1, 1]⟩ = some M ∧
      M.num_rows = 4 ∧ M.num_columns = 4 ∧
      M.elements ((2 * 4 + 2 : Nat) : Int) = ieee_ops.one :=
  ⟨by decide!, zero_pivot_row_divided ieee_ops 1 4
    (ieee_mem 2 [2, 0, 4, 6, 1, 0, 3, 5, 1, 0, 2, 7, 1, 0, 1, 1]) 2 ieee_ops.zero
    (by decide) rfl (by decide) (by decide!)⟩


/-- C7, as stated, fails.  For `A = [NaN]`, `B = [0]`, `size = 1` and
tolerance 1, `check_results` returns 0 (the comparison `fabsf(NaN - 0) > 1` is
false), although `|A[0] - B[0]| <= 1` does not hold (that comparison is false
as well). -/
theorem check_results_accepts_nan :
    check_results ieee_ops (fun _ => FVal.nan) (fun _ => FVal.fin 0) 1 (FVal.fin 1) = 0 ∧
    FVal.le (FVal.fabsf (FVal.sub FVal.nan (FVal.fin 0))) (FVal.fin 1) = false := by
  constructor <;> decide

/-- C7, amended.  For every float arithmetic, all buffers `A` and `B` and every
tolerance, `check_results A B size tol` returns 0 if and only if the comparison
`fabsf(A[k] - B[k]) > tol` is false for every `k < size`, and returns -1 if and
only if it is true for some `k < size`; it returns 0 when `size` is 0.  Over
exact arithmetic the first condition is `|A[k] - B[k]| ≤ tol` for every
`k < size`. -/
theorem check_results_spec {F : Type} (ops : FloatOps F) (A B : Nat → F) (size : Int) (tol : F) :
    (check_results ops A B size tol = 0 ↔
      ∀ k : Nat, (k : Int) < size → ops.gt (ops.fabsf (ops.sub (A k) (B k))) tol = false) ∧
    (check_results ops A B size tol = -1 ↔
      ∃ k : Nat, (k : Int) < size ∧ ops.gt (ops.fabsf (ops.sub (A k) (B k))) tol = true) ∧
    check_results ops A B 0 tol = 0 ∧
    (∀ (A B : Nat → ℚ) (size : Int) (tol : ℚ),
      check_results exact_ops A B size tol = 0 ↔
        ∀ k : Nat, (k : Int) < size → |A k - B k| ≤ tol) := by
  have hiff : ∀ {G : Type} (o : FloatOps G) (A B : Nat → G) (size : Int) (tol : G),
      check_results o A B size tol = 0 ↔
        ∀ k : Nat, (k : Int) < size → o.gt (o.fabsf (o.sub (A k) (B k))) tol = false := by
    intro G o A B size tol
    unfold check_results
    rw [(check_results_from_spec o A B tol size.toNat 0).1]
    constructor
    · intro h k hk
      exact h k (Nat.zero_le _) (by omega)
    · intro h k _ hk
      exact h k (by omega)
  refine ⟨hiff ops A B size tol, ?_, rfl, ?_⟩
  · constructor
    · intro hm
      by_contra hno
      have hall : ∀ k : Nat, (k : Int) < size →
          ops.gt (ops.fabsf (ops.sub (A k) (B k))) tol = false := by
        intro k hk
        by_contra hk2
        exact hno ⟨k, hk, by simpa using hk2⟩
      have h0 := (hiff ops A B size tol).mpr hall
      rw [hm] at h0
      exact absurd h0 (by decide)
    · rintro ⟨k, hk, hgt⟩
      rcases (check_results_from_spec ops A B tol size.toNat 0).2 with h0 | h1
      · have := (hiff ops A B size tol).mp h0 k hk
        rw [hgt] at this
        exact absurd this (by decide)
      · exact h1
  · intro A B size tol
    rw [hiff exact_ops A B size tol]
    constructor
    · intro h k hk
      have := h k hk
      simp only [exact_ops, decide_eq_false_iff_not, not_lt] at this
      exact this
    · intro h k hk
      simp only [exact_ops, decide_eq_false_iff_not, not_lt]
      exact h k hk

/-- C9, as stated, fails.  Take the `3 × 3` matrix with rows `[1, 2, 3]`,
`[2, 5, 7]`, `[1, 1, 6]`, the value 2 at offset `-1`, `T = 1` and pivot row 0:
the worker started by the driver sweeps rows 1 and 2 from their first column.
The cached factor gives rows `[1, 3, 4]` and `[-1, -5, -2]`; recomputing the
factor after `U[r][0]` has been overwritten gives `[1, 1, 1]` and `[-1, 3, 8]`. -/
theorem eliminate_cache_not_recompute :
    (eliminate exact_ops 1 (elim_data 1 ⟨3, 3, mem_of 2 [1, 2, 3, 2, 5, 7, 1, 1, 6]⟩ 0 0) 3 3
        (mem_of 2 [1, 2, 3, 2, 5, 7, 1, 1, 6])).map (fun m => read_buffer m 9)
      = some [1, 2, 3, 1, 3, 4, -1, -5, -2] ∧
    (eliminate_recompute exact_ops 1
        (elim_data 1 ⟨3, 3, mem_of 2 [1, 2, 3, 2, 5, 7, 1, 1, 6]⟩ 0 0) 3 3
        (mem_of 2 [1, 2, 3, 2, 5, 7, 1, 1, 6])).map (fun m => read_buffer m 9)
      = some [1, 2, 3, 1, 1, 1, -1, 3, 8] := by
  constructor <;> decide!

/-- C9, amended.  In `eliminate`, for every float arithmetic, matrix, pivot
column `num_iter < num_columns` and worker index range that starts at or after
row 1 and stays inside the buffer (with every `int` of the sweep below `2 ^ 31`),
caching the factor when the sweep enters a row and recomputing it from the
current value of `U[r][num_iter]` before each element update both complete, and
they leave the same value at every offset `a` that the worker does not sweep,
or that lies in or left of the pivot column, or whose row has its pivot-column
cell before the start of the range. -/
theorem eliminate_cache_eq_recompute {F : Type} (ops : FloatOps F) (T : Nat) (d : elim_data_t F)
    (num_columns num_rows : Nat) (m : Int → F) (hcol : d.num_iter < num_columns)
    (hstart : num_columns ≤ d.start)
    (hin : ∀ k ∈ eliminate_range T d num_columns num_rows, k < num_rows * num_columns)
    (hfit : d.start + d.chunk_size + num_rows * num_columns + num_columns < 2 ^ 31) :
    ∃ m1 m2, eliminate ops T d num_columns num_rows m = some m1 ∧
      eliminate_recompute ops T d num_columns num_rows m = some m2 ∧
      ∀ a : Int, (∀ k ∈ eliminate_range T d num_columns num_rows, (k : Int) = a →
        k % num_columns ≤ d.num_iter ∨
          k / num_columns * num_columns + d.num_iter < d.start) → m1 a = m2 a :=
  eliminate_cache_agree ops T d num_columns num_rows m hcol hin

/-- Witness of C9 amended: the sweep `[3, 9)` the driver starts for a `3 × 3`
matrix, `T = 1` and pivot row 0. -/
theorem eliminate_cache_eq_recompute_witness :
    eliminate_range 1 (elim_data 1 ⟨3, 3, mem_of 2 [1, 2, 3, 2, 5, 7, 1, 1, 6]⟩ 0 0) 3 3
      = [3, 4, 5, 6, 7, 8] ∧
    ∃ m1 m2, eliminate exact_ops 1
        (elim_data 1 ⟨3, 3, mem_of 2 [1, 2, 3, 2, 5, 7, 1, 1, 6]⟩ 0 0) 3 3
        (mem_of 2 [1, 2, 3, 2, 5, 7, 1, 1, 6]) = some m1 ∧
      eliminate_recompute exact_ops 1
        (elim_data 1 ⟨3, 3, mem_of 2 [1, 2, 3, 2, 5, 7, 1, 1, 6]⟩ 0 0) 3 3
        (mem_of 2 [1, 2, 3, 2, 5, 7, 1, 1, 6]) = some m2 ∧
      ∀ a : Int, (∀ k ∈ eliminate_range 1
          (elim_data 1 ⟨3, 3, mem_of 2 [1, 2, 3, 2, 5, 7, 1, 1, 6]⟩ 0 0) 3 3, (k : Int) = a →
        k % 3 ≤ (elim_data 1 ⟨3, 3, mem_of 2 [1, 2, 3, 2, 5, 7, 1, 1, 6]⟩ 0 0).num_iter ∨
          k / 3 * 3 + (elim_data 1 ⟨3, 3, mem_of 2 [1, 2, 3, 2, 5, 7, 1, 1, 6]⟩ 0 0).num_iter <
            (elim_data 1 ⟨3, 3, mem_of 2 [1, 2, 3, 2, 5, 7, 1, 1, 6]⟩ 0 0).start) →
        m1 a = m2 a :=
  ⟨by decide,
    eliminate_cache_eq_recompute exact_ops 1 _ 3 3 _ (by decide) (by decide) (by decide)
      (by decide)⟩

end Checked

end GaussEliminate
